import Mathlib

/-!
Shallow embedding of the ingredient-extraction pipeline of the analyze-image
edge function (src/unnamed/part_003): the food-relatedness label classifier
`isFoodRelated`, the OCR text miner `extractIngredientsFromText`, the
normalizer `normalizeIngredient`, and the aggregation performed inline in the
request handler (filter by confidence and food-relatedness, normalize, mine
text, normalize, concatenate, deduplicate via a JS Set, drop short entries,
keep the first 15).  Strings are modelled as `List Char`; JavaScript numbers
as `ℚ`; the ASCII-relevant parts of `toLowerCase`/`toUpperCase` and the
regex classes `\s`, `\w`, `\b` are modelled explicitly.
-/

namespace FreshCook

/-- The space character U+0020. -/
def spChar : Char := Char.ofNat 32

/-- Code points matched by the JavaScript regex class `\s` (and removed by
`String.prototype.trim`): TAB, LF, VT, FF, CR, SP, NBSP, and the Unicode
space separators, line/paragraph separators and ZWNBSP. -/
def jsWhitespaceCodes : List Nat :=
  [9, 10, 11, 12, 13, 32, 160, 0x1680, 0x2000, 0x2001, 0x2002, 0x2003, 0x2004,
   0x2005, 0x2006, 0x2007, 0x2008, 0x2009, 0x200A, 0x2028, 0x2029, 0x202F,
   0x205F, 0x3000, 0xFEFF]

/-- Is `c` a JavaScript whitespace character (`\s`)? -/
def isJsWs (c : Char) : Bool := jsWhitespaceCodes.contains c.toNat

/-- Is `c` an ASCII lowercase letter a-z? -/
def isLowerAZ (c : Char) : Bool := 97 ≤ c.toNat && c.toNat ≤ 122

/-- Is `c` an ASCII uppercase letter A-Z? -/
def isUpperAZ (c : Char) : Bool := 65 ≤ c.toNat && c.toNat ≤ 90

/-- Per-character ASCII case lowering, as JavaScript `toLowerCase` acts on
the characters relevant to this pipeline. -/
def jsToLower (c : Char) : Char :=
  if isUpperAZ c then Char.ofNat (c.toNat + 32) else c

/-- Per-character ASCII case raising, as JavaScript `toUpperCase` acts on
the characters relevant to this pipeline. -/
def jsToUpper (c : Char) : Char :=
  if isLowerAZ c then Char.ofNat (c.toNat - 32) else c

/-- JavaScript regex word character (`\w`): A-Z, a-z, 0-9 or underscore. -/
def isWordChar (c : Char) : Bool :=
  isLowerAZ c || isUpperAZ c || (48 ≤ c.toNat && c.toNat ≤ 57) || c == Char.ofNat 95

/-- Does the first list start with the second one? -/
def listStartsWith : List Char → List Char → Bool
  | _, [] => true
  | [], _ :: _ => false
  | c :: cs, d :: ds => c == d && listStartsWith cs ds

/-- JavaScript `hay.includes(needle)`: does `needle` occur as a contiguous
substring of `hay`? -/
def hasSubstr : List Char → List Char → Bool
  | [], needle => needle.isEmpty
  | c :: cs, needle => listStartsWith (c :: cs) needle || hasSubstr cs needle

/-- The `foodKeywords` relatedness lexicon of `isFoodRelated`, in source
order. -/
def foodKeywords : List (List Char) :=
  ([ "food", "ingredient", "vegetable", "fruit", "meat", "dairy", "grain",
     "spice", "herb", "sauce", "oil", "vinegar", "cheese", "milk", "egg",
     "bread", "pasta", "rice", "bean", "nut", "seed", "fish", "chicken",
     "beef", "pork", "lamb", "turkey", "onion", "garlic", "tomato", "potato",
     "carrot", "pepper", "mushroom", "lettuce", "spinach", "broccoli",
     "apple", "banana", "orange", "lemon", "lime", "strawberry", "blueberry",
     "cucumber", "zucchini", "corn", "peas", "cabbage", "cauliflower",
     "celery", "avocado", "mango", "pineapple", "grapes", "berries"
   ] : List String).map String.toList

/-- The `commonIngredients` mining dictionary of
`extractIngredientsFromText`, in source order. -/
def commonIngredients : List (List Char) :=
  ([ "flour", "sugar", "salt", "pepper", "oil", "butter", "milk", "eggs",
     "onion", "garlic", "tomato", "potato", "carrot", "celery", "parsley",
     "basil", "oregano", "thyme", "rosemary", "chicken", "beef", "pork",
     "fish", "cheese", "cream", "yogurt", "lemon", "lime", "vinegar",
     "soy sauce", "olive oil", "coconut oil", "honey", "vanilla", "cinnamon",
     "ginger", "paprika", "cumin", "turmeric", "chili", "mushrooms",
     "spinach", "broccoli", "cauliflower", "zucchini", "eggplant", "peppers",
     "cucumber", "lettuce", "cabbage", "kale", "arugula", "cilantro",
     "mint", "dill", "sage", "bay leaves", "nutmeg", "cardamom", "cloves"
   ] : List String).map String.toList

/-- The classifier isFoodRelated: lowercase the label, then test each keyword for
a bidirectional substring match (`labelLower.includes(keyword) ||
keyword.includes(labelLower)`). -/
def isFoodRelated (label : List Char) : Bool :=
  let labelLower := label.map jsToLower
  foodKeywords.any (fun keyword =>
    hasSubstr labelLower keyword || hasSubstr keyword labelLower)

/-- Case-insensitive character comparison used by the `i` regex flag on the
ASCII patterns of the mining dictionary. -/
def ciEq (p c : Char) : Bool := jsToLower p == jsToLower c

/-- Match the literal pattern characters `pat` against the front of `rest`
case-insensitively; `prev` is the character just before the current
position.  On success return the last consumed character (for the closing
word-boundary test) and the remaining text. -/
def matchCI : List Char → Option Char → List Char → Option (Option Char × List Char)
  | [], prev, rest => some (prev, rest)
  | _ :: _, _, [] => none
  | p :: ps, _, c :: cs => if ciEq p c then matchCI ps (some c) cs else none

/-- Is the head of the list a word character (`false` at end of input)? -/
def headIsWord : List Char → Bool
  | [] => false
  | c :: _ => isWordChar c

/-- Is the optional previous character a word character (`false` at start of
input)? -/
def prevIsWord : Option Char → Bool
  | none => false
  | some c => isWordChar c

/-- JavaScript regex word boundary `\b` between the previous character and
the rest of the text. -/
def wordBoundary (prev : Option Char) (rest : List Char) : Bool :=
  prevIsWord prev != headIsWord rest

/-- Does the pattern `\b term s? \b` (flag `i`) match at the current
position, whose previous character is `prev` and remaining text `rest`? -/
def patMatchAt (term : List Char) (prev : Option Char) (rest : List Char) : Bool :=
  wordBoundary prev rest &&
    ((match matchCI (term ++ [Char.ofNat 115]) prev rest with
      | some (last, r) => wordBoundary last r
      | none => false) ||
     (match matchCI term prev rest with
      | some (last, r) => wordBoundary last r
      | none => false))

/-- Scan the text left to right for a match of `\b term s? \b`. -/
def searchFrom (term : List Char) : Option Char → List Char → Bool
  | prev, [] => patMatchAt term prev []
  | prev, c :: cs => patMatchAt term prev (c :: cs) || searchFrom term (some c) cs

/-- The regex test built and run per dictionary term: word boundary, the
term, an optional trailing s, word boundary, case-insensitive. -/
def regexTestTerm (term text : List Char) : Bool := searchFrom term none text

/-- The text miner extractIngredientsFromText: push every dictionary term whose
word-boundary singular/plural pattern tests true on the text, in dictionary
order. -/
def extractIngredientsFromText (text : List Char) : List (List Char) :=
  commonIngredients.foldl
    (fun found ing => if regexTestTerm ing text then found ++ [ing] else found) []

/-- The replace step of the normalizer: keep only lowercase ASCII letters
and JavaScript whitespace, dropping every other character. -/
def stripChars (l : List Char) : List Char :=
  l.filter (fun c => isLowerAZ c || isJsWs c)

/-- Drop leading JavaScript whitespace. -/
def trimLeft (l : List Char) : List Char := l.dropWhile isJsWs

/-- JavaScript `String.prototype.trim`: drop leading and trailing
whitespace. -/
def jsTrim (l : List Char) : List Char :=
  ((trimLeft l).reverse.dropWhile isJsWs).reverse

/-- JavaScript split on a single space, as (first field, remaining fields). -/
def splitSp : List Char → List Char × List (List Char)
  | [] => ([], [])
  | c :: cs =>
    let r := splitSp cs
    if c = spChar then ([], r.1 :: r.2) else (c :: r.1, r.2)

/-- JavaScript split on a single space (always returns at least one field; splitting
the empty string yields one empty field). -/
def splitWords (l : List Char) : List (List Char) := (splitSp l).1 :: (splitSp l).2

/-- Title-case one word: uppercase its first character, keep the rest. -/
def titleWord : List Char → List Char
  | [] => []
  | c :: cs => jsToUpper c :: cs

/-- JavaScript join with a single space separator. -/
def joinSp : List (List Char) → List Char
  | [] => []
  | [w] => w
  | w :: v :: ws => w ++ spChar :: joinSp (v :: ws)

/-- The normalizer normalizeIngredient: lowercase, strip characters
outside lowercase letters and whitespace,
trim, split on single spaces, title-case each word, rejoin. -/
def normalizeIngredient (s : List Char) : List Char :=
  joinSp ((splitWords (jsTrim (stripChars (s.map jsToLower)))).map titleWord)

/-- A label annotation returned by the vision service. -/
structure LabelAnnotation where
  description : List Char
  score : ℚ
  deriving DecidableEq

/-- The label block of the handler: keep labels with score above 0.5 that are
food-related, and normalize their descriptions.  `none` models an absent
`labelAnnotations` field (the block is skipped). -/
def labelIngredients : Option (List LabelAnnotation) → List (List Char)
  | none => []
  | some labels =>
    (labels.filter (fun l =>
        decide (mkRat 1 2 < l.score) && isFoodRelated l.description)).map
      (fun l => normalizeIngredient l.description)

/-- The text block of the handler: if the text annotation list is present
and nonempty, lowercase the description of its first element, mine it, and normalize the
mined terms; otherwise contribute nothing. -/
def textIngredients : Option (List (List Char)) → List (List Char)
  | some (t :: _) =>
    (extractIngredientsFromText (t.map jsToLower)).map normalizeIngredient
  | some [] => []
  | none => []

/-- The JavaScript Set spread: deduplicate keeping first occurrences, in insertion
order. -/
def setDedup (l : List (List Char)) : List (List Char) :=
  l.foldl (fun acc x => if x ∈ acc then acc else acc ++ [x]) []

/-- The aggregation performed by the request handler on a successful vision
response: labels block, then text block, then
`[...new Set(ingredients)].filter(i => i.length > 2).slice(0, 15)`. -/
def extractIngredients (labelAnnotations : Option (List LabelAnnotation))
    (textAnnotations : Option (List (List Char))) : List (List Char) :=
  ((setDedup (labelIngredients labelAnnotations ++ textIngredients textAnnotations)).filter
      (fun s => 2 < s.length)).take 15

/-- The spec-side Aggregator of §4.5: the six numbered steps, with
deduplication written as a recursive keep-first pass. -/
def dedupAux (seen : List (List Char)) : List (List Char) → List (List Char)
  | [] => []
  | x :: xs => if x ∈ seen then dedupAux seen xs else x :: dedupAux (x :: seen) xs

/-- Deduplicate keeping the first occurrence of each value. -/
def dedupKeepFirst (l : List (List Char)) : List (List Char) := dedupAux [] l

/-- The Aggregator contract of spec §4.5, written following its six
steps: filter labels by confidence and food-relatedness and normalize; mine
the raw text (when present) and normalize; concatenate labels-first;
deduplicate by exact value equality keeping first occurrences; filter out
entries of length at most 2; truncate to the first 15 survivors. -/
def specExtractIngredients (labels : Option (List LabelAnnotation))
    (rawText : Option (List Char)) : List (List Char) :=
  let step1 := match labels with
    | none => []
    | some ls =>
      (ls.filter (fun l =>
          decide (mkRat 1 2 < l.score) && isFoodRelated l.description)).map
        (fun l => normalizeIngredient l.description)
  let step2 := match rawText with
    | none => []
    | some t => (extractIngredientsFromText (t.map jsToLower)).map normalizeIngredient
  let step4 := dedupKeepFirst (step1 ++ step2)
  let step5 := step4.filter (fun s => !decide (s.length ≤ 2))
  step5.take 15

/-- The raw OCR text the handler actually mines: the description of the
first text annotation, when one exists. -/
def firstText : Option (List (List Char)) → Option (List Char)
  | some (t :: _) => some t
  | some [] => none
  | none => none

/-- The character at index `j`, if any. -/
def nthChar : List Char → Nat → Option Char
  | [], _ => none
  | c :: _, 0 => some c
  | _ :: cs, j + 1 => nthChar cs j

/-- Previous-character lookup for stating where a regex pattern matches:
position `0` has no previous character, position `j+1` is preceded by the
character at index `j`. -/
def posPrev (prev : Option Char) (rest : List Char) : Nat → Option Char
  | 0 => prev
  | j + 1 => nthChar rest j

/-- Ten distinct qualifying label annotations (every description contains
the keyword "tomato" and scores 0.9). -/
def tenLabels : List LabelAnnotation :=
  ([ "tomato aaa", "tomato bbb", "tomato ccc", "tomato ddd", "tomato eee",
     "tomato fff", "tomato ggg", "tomato hhh", "tomato iii", "tomato jjj"
   ] : List String).map (fun s => ⟨s.toList, mkRat 9 10⟩)

/-- An OCR text mentioning twenty distinct mining-dictionary terms. -/
def twentyTermText : List Char :=
  ("flour sugar salt butter milk onion garlic tomato potato carrot " ++
    "celery parsley basil oregano thyme rosemary chicken beef pork fish").toList

/-- The first 15 qualifying ingredients of `tenLabels`/`twentyTermText` in
label-then-text order: all ten labels, then the first five mined terms in
dictionary order. -/
def fifteenExpected : List (List Char) :=
  ([ "Tomato Aaa", "Tomato Bbb", "Tomato Ccc", "Tomato Ddd", "Tomato Eee",
     "Tomato Fff", "Tomato Ggg", "Tomato Hhh", "Tomato Iii", "Tomato Jjj",
     "Flour", "Sugar", "Salt", "Butter", "Milk"
   ] : List String).map String.toList

section SubstringLemmas

theorem listStartsWith_iff (l s : List Char) :
    listStartsWith l s = true ↔ ∃ t, l = s ++ t := by
  induction s generalizing l with
  | nil => simp [listStartsWith]
  | cons d ds ih =>
    cases l with
    | nil => simp [listStartsWith]
    | cons c cs =>
      simp only [listStartsWith, Bool.and_eq_true, beq_iff_eq, ih, List.cons_append,
        List.cons.injEq]
      constructor
      · rintro ⟨rfl, t, rfl⟩
        exact ⟨t, rfl, rfl⟩
      · rintro ⟨t, rfl, rfl⟩
        exact ⟨rfl, t, rfl⟩

theorem hasSubstr_iff (hay needle : List Char) :
    hasSubstr hay needle = true ↔ ∃ p q, hay = p ++ needle ++ q := by
  induction hay with
  | nil =>
    simp only [hasSubstr, List.isEmpty_iff]
    constructor
    · rintro rfl
      exact ⟨[], [], rfl⟩
    · rintro ⟨p, q, h⟩
      exact (List.append_eq_nil.mp (List.append_eq_nil.mp h.symm).1).2
  | cons c cs ih =>
    simp only [hasSubstr, Bool.or_eq_true, listStartsWith_iff, ih]
    constructor
    · rintro (⟨t, h⟩ | ⟨p, q, h⟩)
      · exact ⟨[], t, by simpa using h⟩
      · exact ⟨c :: p, q, by simp [h]⟩
    · rintro ⟨p, q, h⟩
      cases p with
      | nil =>
        exact Or.inl ⟨q, by simpa using h⟩
      | cons x xs =>
        right
        have h2 : c :: cs = x :: (xs ++ needle ++ q) := by simpa using h
        injection h2 with _ h3
        exact ⟨xs, q, h3⟩

end SubstringLemmas

section CharLemmas

theorem char_toNat_ofNat {n : Nat} (h : n < 55296) : (Char.ofNat n).toNat = n := by
  unfold Char.ofNat
  split
  · rfl
  · rename_i hv
    exact absurd (Or.inl h) hv

theorem ws_codes_not_letter :
    ∀ n ∈ jsWhitespaceCodes, ¬(65 ≤ n ∧ n ≤ 90) ∧ ¬(97 ≤ n ∧ n ≤ 122) := by
  decide

theorem isJsWs_iff {c : Char} : isJsWs c = true ↔ c.toNat ∈ jsWhitespaceCodes := by
  simp [isJsWs, List.contains_iff_exists_mem_beq, beq_iff_eq, eq_comm]

theorem not_upper_of_ws {c : Char} (h : isJsWs c = true) : isUpperAZ c = false := by
  have h2 := (ws_codes_not_letter _ (isJsWs_iff.mp h)).1
  simp only [isUpperAZ, Bool.and_eq_false_iff, decide_eq_false_iff_not]
  omega

theorem not_lower_of_ws {c : Char} (h : isJsWs c = true) : isLowerAZ c = false := by
  have h2 := (ws_codes_not_letter _ (isJsWs_iff.mp h)).2
  simp only [isLowerAZ, Bool.and_eq_false_iff, decide_eq_false_iff_not]
  omega

theorem not_ws_of_upper {c : Char} (h : isUpperAZ c = true) : isJsWs c = false := by
  cases hw : isJsWs c
  · rfl
  · rw [not_upper_of_ws hw] at h
    exact absurd h (by simp)

theorem not_upper_of_lower {c : Char} (h : isLowerAZ c = true) : isUpperAZ c = false := by
  simp only [isLowerAZ, Bool.and_eq_true, decide_eq_true_eq] at h
  simp only [isUpperAZ, Bool.and_eq_false_iff, decide_eq_false_iff_not]
  omega

theorem jsToLower_eq_self {c : Char} (h : isUpperAZ c = false) : jsToLower c = c := by
  simp [jsToLower, h]

theorem jsToUpper_eq_self {c : Char} (h : isLowerAZ c = false) : jsToUpper c = c := by
  simp [jsToUpper, h]

theorem jsToLower_of_lower {c : Char} (h : isLowerAZ c = true) : jsToLower c = c :=
  jsToLower_eq_self (not_upper_of_lower h)

theorem isUpperAZ_jsToUpper {c : Char} (h : isLowerAZ c = true) :
    isUpperAZ (jsToUpper c) = true := by
  simp only [isLowerAZ, Bool.and_eq_true, decide_eq_true_eq] at h
  have hb : isLowerAZ c = true := by
    simp only [isLowerAZ, Bool.and_eq_true, decide_eq_true_eq]
    omega
  simp only [jsToUpper, hb, if_true]
  have ht : (Char.ofNat (c.toNat - 32)).toNat = c.toNat - 32 :=
    char_toNat_ofNat (by omega)
  simp only [isUpperAZ, ht, Bool.and_eq_true, decide_eq_true_eq]
  omega

theorem jsToLower_jsToUpper {c : Char} (h : (isLowerAZ c || isJsWs c) = true) :
    jsToLower (jsToUpper c) = c := by
  rcases Bool.or_eq_true_iff.mp h with hl | hw
  · have hn : 97 ≤ c.toNat ∧ c.toNat ≤ 122 := by
      simpa [isLowerAZ, Bool.and_eq_true, decide_eq_true_eq] using hl
    have hup : jsToUpper c = Char.ofNat (c.toNat - 32) := by
      simp [jsToUpper, hl]
    have ht : (Char.ofNat (c.toNat - 32)).toNat = c.toNat - 32 :=
      char_toNat_ofNat (by omega)
    have hu : isUpperAZ (Char.ofNat (c.toNat - 32)) = true := by
      simp only [isUpperAZ, ht, Bool.and_eq_true, decide_eq_true_eq]
      omega
    rw [hup, jsToLower, if_pos hu, ht]
    have : c.toNat - 32 + 32 = c.toNat := by omega
    rw [this, Char.ofNat_toNat]
  · rw [jsToUpper_eq_self (not_lower_of_ws hw),
      jsToLower_eq_self (not_upper_of_ws hw)]

theorem jsToLower_keep {c : Char} (h : (isLowerAZ c || isJsWs c) = true) :
    jsToLower c = c := by
  rcases Bool.or_eq_true_iff.mp h with hl | hw
  · exact jsToLower_of_lower hl
  · exact jsToLower_eq_self (not_upper_of_ws hw)

theorem isJsWs_spChar : isJsWs spChar = true := by decide

theorem jsToLower_spChar : jsToLower spChar = spChar := by decide

theorem keep_jsToUpper {c : Char} (h : (isLowerAZ c || isJsWs c) = true) :
    (isLowerAZ (jsToUpper c) || isUpperAZ (jsToUpper c) || isJsWs (jsToUpper c)) = true := by
  rcases Bool.or_eq_true_iff.mp h with hl | hw
  · simp [isUpperAZ_jsToUpper hl]
  · rw [jsToUpper_eq_self (not_lower_of_ws hw)]
    simp [hw]

theorem not_ws_jsToUpper {c : Char} (h : isLowerAZ c = true) :
    isJsWs (jsToUpper c) = false :=
  not_ws_of_upper (isUpperAZ_jsToUpper h)

end CharLemmas

section SplitJoinLemmas

theorem joinSp_cons_cons (w v : List Char) (ws : List (List Char)) :
    joinSp (w :: v :: ws) = w ++ spChar :: joinSp (v :: ws) := rfl

theorem joinSp_splitWords (l : List Char) : joinSp (splitWords l) = l := by
  induction l with
  | nil => rfl
  | cons c cs ih =>
    unfold splitWords at ih ⊢
    rw [splitSp]
    by_cases hc : c = spChar
    · subst hc
      rw [if_pos rfl, joinSp_cons_cons, List.nil_append, ih]
    · simp only [if_neg hc]
      rcases hs : (splitSp cs).2 with _ | ⟨v, vs⟩
      · rw [hs] at ih
        simpa [joinSp] using congrArg (c :: ·) ih
      · rw [hs] at ih
        rw [joinSp_cons_cons, List.cons_append, ← joinSp_cons_cons, ih]

theorem map_joinSp (f : Char → Char) (hf : f spChar = spChar) :
    ∀ L : List (List Char), (joinSp L).map f = joinSp (L.map (List.map f))
  | [] => rfl
  | [w] => rfl
  | w :: v :: ws => by
    rw [joinSp_cons_cons, List.map_append, List.map_cons, hf,
      map_joinSp f hf (v :: ws)]
    rfl

theorem mem_splitSp (l : List Char) :
    (∀ c ∈ (splitSp l).1, c ∈ l) ∧ ∀ w ∈ (splitSp l).2, ∀ c ∈ w, c ∈ l := by
  induction l with
  | nil => simp [splitSp]
  | cons x xs ih =>
    rw [splitSp]
    by_cases hx : x = spChar
    · simp only [hx, if_pos rfl]
      constructor
      · intro c hc
        exact absurd hc (List.not_mem_nil c)
      · intro w hw c hc
        rcases List.mem_cons.mp hw with rfl | hw2
        · exact List.mem_cons_of_mem _ (ih.1 c hc)
        · exact List.mem_cons_of_mem _ (ih.2 w hw2 c hc)
    · simp only [if_neg hx]
      constructor
      · intro c hc
        rcases List.mem_cons.mp hc with rfl | hc2
        · exact List.mem_cons_self _ _
        · exact List.mem_cons_of_mem _ (ih.1 c hc2)
      · intro w hw c hc
        exact List.mem_cons_of_mem _ (ih.2 w hw c hc)

theorem mem_of_mem_splitWords {l : List Char} {w : List Char} {c : Char}
    (hw : w ∈ splitWords l) (hc : c ∈ w) : c ∈ l := by
  rcases List.mem_cons.mp hw with rfl | hw2
  · exact (mem_splitSp l).1 c hc
  · exact (mem_splitSp l).2 w hw2 c hc

theorem exists_word_of_mem {l : List Char} {c : Char} (hc : c ∈ l) (hne : c ≠ spChar) :
    ∃ w ∈ splitWords l, c ∈ w := by
  induction l with
  | nil => exact absurd hc (List.not_mem_nil c)
  | cons x xs ih =>
    unfold splitWords at ih ⊢
    rw [splitSp]
    rcases List.mem_cons.mp hc with rfl | hc2
    · simp only [if_neg hne]
      exact ⟨c :: (splitSp xs).1, List.mem_cons_self _ _, List.mem_cons_self _ _⟩
    · rcases ih hc2 with ⟨w, hw, hcw⟩
      by_cases hx : x = spChar
      · simp only [hx, if_pos rfl]
        exact ⟨w, List.mem_cons_of_mem _ hw, hcw⟩
      · simp only [if_neg hx]
        rcases List.mem_cons.mp hw with h1 | hw2
        · subst h1
          exact ⟨x :: (splitSp xs).1, List.mem_cons_self _ _,
            List.mem_cons_of_mem _ hcw⟩
        · exact ⟨w, List.mem_cons_of_mem _ hw2, hcw⟩

theorem mem_joinSp_of_mem : ∀ (L : List (List Char)) (w : List Char), w ∈ L →
    ∀ c : Char, c ∈ w → c ∈ joinSp L
  | [], w, hw, _, _ => absurd hw (List.not_mem_nil w)
  | [v], w, hw, c, hc => by
    rcases List.mem_cons.mp hw with rfl | hw2
    · exact hc
    · exact absurd hw2 (List.not_mem_nil w)
  | v :: u :: us, w, hw, c, hc => by
    rw [joinSp_cons_cons]
    rcases List.mem_cons.mp hw with rfl | hw2
    · exact List.mem_append_left _ hc
    · exact List.mem_append_right _
        (List.mem_cons_of_mem _ (mem_joinSp_of_mem (u :: us) w hw2 c hc))

theorem mem_joinSp : ∀ (L : List (List Char)) (c : Char),
    c ∈ joinSp L → c = spChar ∨ ∃ w ∈ L, c ∈ w
  | [], c, hc => absurd hc (List.not_mem_nil c)
  | [v], c, hc => Or.inr ⟨v, List.mem_cons_self _ _, hc⟩
  | v :: u :: us, c, hc => by
    rw [joinSp_cons_cons] at hc
    rcases List.mem_append.mp hc with hv | hrest
    · exact Or.inr ⟨v, List.mem_cons_self _ _, hv⟩
    · rcases List.mem_cons.mp hrest with rfl | htail
      · exact Or.inl rfl
      · rcases mem_joinSp (u :: us) c htail with rfl | ⟨w, hw, hcw⟩
        · exact Or.inl rfl
        · exact Or.inr ⟨w, List.mem_cons_of_mem _ hw, hcw⟩

end SplitJoinLemmas

section TrimLemmas

theorem jsTrim_eq (l : List Char) :
    jsTrim l = List.rdropWhile isJsWs (List.dropWhile isJsWs l) := rfl

theorem dropWhile_head_false {α : Type} {p : α → Bool} {l : List α}
    (h : ∀ hne : l ≠ [], p (l.head hne) = false) : List.dropWhile p l = l := by
  cases l with
  | nil => rfl
  | cons c cs =>
    rw [List.dropWhile_cons, if_neg]
    simpa using h (List.cons_ne_nil c cs)

theorem dropWhile_rdropWhile_dropWhile (l : List Char) :
    List.dropWhile isJsWs (List.rdropWhile isJsWs (List.dropWhile isJsWs l)) =
      List.rdropWhile isJsWs (List.dropWhile isJsWs l) := by
  apply dropWhile_head_false
  intro hne
  have hpre : List.rdropWhile isJsWs (List.dropWhile isJsWs l) <+:
      List.dropWhile isJsWs l := List.rdropWhile_prefix _ _
  rw [hpre.head hne]
  exact List.head_dropWhile_not isJsWs l (hpre.ne_nil hne)

theorem jsTrim_idem (l : List Char) : jsTrim (jsTrim l) = jsTrim l := by
  rw [jsTrim_eq, jsTrim_eq l, dropWhile_rdropWhile_dropWhile,
    List.rdropWhile_idempotent]

theorem mem_jsTrim {l : List Char} {c : Char} (h : c ∈ jsTrim l) : c ∈ l := by
  rw [jsTrim_eq] at h
  exact (List.dropWhile_suffix isJsWs).subset
    ((List.rdropWhile_prefix _ _).sublist.subset h)

theorem jsTrim_has_non_ws {l : List Char} (h : jsTrim l ≠ []) :
    ∃ c ∈ jsTrim l, isJsWs c = false := by
  refine ⟨(jsTrim l).head h, List.head_mem h, ?_⟩
  have hpre : jsTrim l <+: List.dropWhile isJsWs l := by
    rw [jsTrim_eq]
    exact List.rdropWhile_prefix _ _
  rw [hpre.head h]
  exact List.head_dropWhile_not isJsWs l (hpre.ne_nil h)

end TrimLemmas

section DedupLemmas

theorem foldl_push_filter {α : Type} (p : α → Bool) :
    ∀ (l acc : List α),
      l.foldl (fun a x => if p x then a ++ [x] else a) acc = acc ++ l.filter p
  | [], acc => by simp
  | x :: xs, acc => by
    rw [List.foldl_cons, List.filter_cons]
    by_cases hx : p x
    · rw [if_pos hx, if_pos hx, foldl_push_filter p xs (acc ++ [x]), List.append_assoc]
      rfl
    · rw [if_neg hx, if_neg hx, foldl_push_filter p xs acc]

theorem extractIngredientsFromText_eq_filter (text : List Char) :
    extractIngredientsFromText text =
      commonIngredients.filter (fun term => regexTestTerm term text) := by
  unfold extractIngredientsFromText
  rw [foldl_push_filter, List.nil_append]

theorem dedupAux_congr : ∀ (l s₁ s₂ : List (List Char)),
    (∀ y, y ∈ s₁ ↔ y ∈ s₂) → dedupAux s₁ l = dedupAux s₂ l
  | [], _, _, _ => rfl
  | x :: xs, s₁, s₂, h => by
    rw [dedupAux, dedupAux]
    by_cases hx : x ∈ s₁
    · rw [if_pos hx, if_pos ((h x).mp hx), dedupAux_congr xs s₁ s₂ h]
    · rw [if_neg hx, if_neg (fun hc => hx ((h x).mpr hc)),
        dedupAux_congr xs (x :: s₁) (x :: s₂) (fun y => by simp [h y])]

theorem setDedup_go : ∀ (l acc : List (List Char)),
    l.foldl (fun a x => if x ∈ a then a else a ++ [x]) acc = acc ++ dedupAux acc l
  | [], acc => by simp [dedupAux]
  | x :: xs, acc => by
    rw [List.foldl_cons, dedupAux]
    by_cases hx : x ∈ acc
    · rw [if_pos hx, if_pos hx, setDedup_go xs acc]
    · rw [if_neg hx, if_neg hx, setDedup_go xs (acc ++ [x]), List.append_assoc,
        List.singleton_append,
        dedupAux_congr xs (acc ++ [x]) (x :: acc) (fun y => by simp [or_comm])]

theorem setDedup_eq_dedupKeepFirst (l : List (List Char)) :
    setDedup l = dedupKeepFirst l := by
  rw [setDedup, dedupKeepFirst, setDedup_go, List.nil_append]

theorem mem_of_mem_dedupAux : ∀ (l seen : List (List Char)) {x : List Char},
    x ∈ dedupAux seen l → x ∈ l
  | [], _, x, hx => absurd hx (List.not_mem_nil x)
  | y :: ys, seen, x, hx => by
    rw [dedupAux] at hx
    by_cases hy : y ∈ seen
    · rw [if_pos hy] at hx
      exact List.mem_cons_of_mem _ (mem_of_mem_dedupAux ys seen hx)
    · rw [if_neg hy] at hx
      rcases List.mem_cons.mp hx with rfl | hx2
      · exact List.mem_cons_self _ _
      · exact List.mem_cons_of_mem _ (mem_of_mem_dedupAux ys (y :: seen) hx2)

theorem dedupAux_not_mem_seen : ∀ (l seen : List (List Char)) {x : List Char},
    x ∈ dedupAux seen l → x ∉ seen
  | [], _, x, hx => absurd hx (List.not_mem_nil x)
  | y :: ys, seen, x, hx => by
    rw [dedupAux] at hx
    by_cases hy : y ∈ seen
    · rw [if_pos hy] at hx
      exact dedupAux_not_mem_seen ys seen hx
    · rw [if_neg hy] at hx
      rcases List.mem_cons.mp hx with rfl | hx2
      · exact hy
      · intro hc
        exact dedupAux_not_mem_seen ys (y :: seen) hx2 (List.mem_cons_of_mem _ hc)

theorem dedupAux_nodup : ∀ (l seen : List (List Char)), (dedupAux seen l).Nodup
  | [], _ => List.nodup_nil
  | y :: ys, seen => by
    rw [dedupAux]
    by_cases hy : y ∈ seen
    · rw [if_pos hy]
      exact dedupAux_nodup ys seen
    · rw [if_neg hy]
      refine List.nodup_cons.mpr ⟨?_, dedupAux_nodup ys (y :: seen)⟩
      intro hc
      exact dedupAux_not_mem_seen ys (y :: seen) hc (List.mem_cons_self _ _)

theorem setDedup_nodup (l : List (List Char)) : (setDedup l).Nodup := by
  rw [setDedup_eq_dedupKeepFirst]
  exact dedupAux_nodup l []

theorem mem_of_mem_setDedup {l : List (List Char)} {x : List Char}
    (h : x ∈ setDedup l) : x ∈ l := by
  rw [setDedup_eq_dedupKeepFirst] at h
  exact mem_of_mem_dedupAux l [] h

end DedupLemmas

section NormalizeLemmas

theorem mem_stripChars {l : List Char} {c : Char} (h : c ∈ stripChars l) :
    (isLowerAZ c || isJsWs c) = true := (List.mem_filter.mp h).2

theorem stripChars_jsTrim_stripChars (l : List Char) :
    stripChars (jsTrim (stripChars l)) = jsTrim (stripChars l) := by
  apply List.filter_eq_self.mpr
  intro c hc
  exact mem_stripChars (mem_jsTrim hc)

theorem map_normalize_eq_trim (s : List Char) :
    (normalizeIngredient s).map jsToLower = jsTrim (stripChars (s.map jsToLower)) := by
  unfold normalizeIngredient
  rw [map_joinSp jsToLower jsToLower_spChar, List.map_map]
  have h1 : ∀ w ∈ splitWords (jsTrim (stripChars (s.map jsToLower))),
      (List.map jsToLower ∘ titleWord) w = id w := by
    intro w hw
    show (titleWord w).map jsToLower = w
    cases w with
    | nil => rfl
    | cons c cs =>
      have hkeep : ∀ x ∈ c :: cs, (isLowerAZ x || isJsWs x) = true := fun x hx =>
        mem_stripChars (mem_jsTrim (mem_of_mem_splitWords hw hx))
      rw [titleWord, List.map_cons, jsToLower_jsToUpper (hkeep c (List.mem_cons_self c cs))]
      congr 1
      have h2 : List.map jsToLower cs = List.map (fun x => x) cs :=
        List.map_congr_left
          (fun x hx => jsToLower_keep (hkeep x (List.mem_cons_of_mem c hx)))
      simpa using h2
  rw [List.map_congr_left h1, List.map_id, joinSp_splitWords]

theorem normalizeIngredient_idem_aux (s : List Char) :
    normalizeIngredient (normalizeIngredient s) = normalizeIngredient s := by
  conv_lhs => rw [normalizeIngredient]
  rw [map_normalize_eq_trim, stripChars_jsTrim_stripChars, jsTrim_idem]
  rfl

theorem normalize_chars {s : List Char} {c : Char} (h : c ∈ normalizeIngredient s) :
    (isLowerAZ c || isUpperAZ c || isJsWs c) = true := by
  unfold normalizeIngredient at h
  rcases mem_joinSp _ _ h with rfl | ⟨w, hw, hcw⟩
  · simp [isJsWs_spChar]
  · rcases List.mem_map.mp hw with ⟨w0, hw0, rfl⟩
    cases w0 with
    | nil => exact absurd hcw (List.not_mem_nil c)
    | cons d ds =>
      rw [titleWord] at hcw
      have hkeep : ∀ x ∈ d :: ds, (isLowerAZ x || isJsWs x) = true := fun x hx =>
        mem_stripChars (mem_jsTrim (mem_of_mem_splitWords hw0 hx))
      rcases List.mem_cons.mp hcw with rfl | htail
      · have h2 := keep_jsToUpper (hkeep d (List.mem_cons_self d ds))
        rcases Bool.or_eq_true_iff.mp h2 with h3 | h4
        · rcases Bool.or_eq_true_iff.mp h3 with h5 | h6
          · simp [h5]
          · simp [h6]
        · simp [h4]
      · have h2 := hkeep c (List.mem_cons_of_mem d htail)
        rcases Bool.or_eq_true_iff.mp h2 with h3 | h4
        · simp [h3]
        · simp [h4]

theorem normalize_of_strip_nil {s : List Char} (h : stripChars (s.map jsToLower) = []) :
    normalizeIngredient s = [] := by
  unfold normalizeIngredient
  rw [h]
  rfl

theorem normalize_has_non_ws {s : List Char} (h : normalizeIngredient s ≠ []) :
    ∃ c ∈ normalizeIngredient s, isJsWs c = false := by
  have hzne : jsTrim (stripChars (s.map jsToLower)) ≠ [] := by
    intro h0
    apply h
    unfold normalizeIngredient
    rw [h0]
    rfl
  obtain ⟨c, hcz, hcws⟩ := jsTrim_has_non_ws hzne
  have hkeep := mem_stripChars (mem_jsTrim hcz)
  have hlow : isLowerAZ c = true := by
    rcases Bool.or_eq_true_iff.mp hkeep with h1 | h2
    · exact h1
    · rw [h2] at hcws
      cases hcws
  have hcsp : c ≠ spChar := by
    intro h0
    rw [h0, isJsWs_spChar] at hcws
    cases hcws
  obtain ⟨w, hw, hcw⟩ := exists_word_of_mem hcz hcsp
  cases w with
  | nil => exact absurd hcw (List.not_mem_nil c)
  | cons d ds =>
    rcases List.mem_cons.mp hcw with rfl | htail
    · refine ⟨jsToUpper c, ?_, not_ws_jsToUpper hlow⟩
      unfold normalizeIngredient
      exact mem_joinSp_of_mem _ (titleWord (c :: ds))
        (List.mem_map_of_mem titleWord hw) _
        (by rw [titleWord]; exact List.mem_cons_self _ _)
    · refine ⟨c, ?_, hcws⟩
      unfold normalizeIngredient
      exact mem_joinSp_of_mem _ (titleWord (d :: ds))
        (List.mem_map_of_mem titleWord hw) _
        (by rw [titleWord]; exact List.mem_cons_of_mem _ htail)

end NormalizeLemmas

section PipelineLemmas

theorem commonIngredients_nodup : commonIngredients.Nodup := by decide

theorem searchFrom_iff (term : List Char) : ∀ (rest : List Char) (prev : Option Char),
    searchFrom term prev rest = true ↔
      ∃ j, j ≤ rest.length ∧ patMatchAt term (posPrev prev rest j) (rest.drop j) = true
  | [], prev => by
    rw [searchFrom]
    constructor
    · intro h
      exact ⟨0, Nat.le_refl _, h⟩
    · rintro ⟨j, hj, hp⟩
      have hj0 : j = 0 := Nat.le_zero.mp hj
      subst hj0
      exact hp
  | c :: cs, prev => by
    rw [searchFrom, Bool.or_eq_true, searchFrom_iff term cs (some c)]
    constructor
    · rintro (h | ⟨j, hj, hp⟩)
      · exact ⟨0, Nat.zero_le _, h⟩
      · refine ⟨j + 1, Nat.succ_le_succ hj, ?_⟩
        cases j with
        | zero => exact hp
        | succ k => exact hp
    · rintro ⟨j, hj, hp⟩
      cases j with
      | zero => exact Or.inl hp
      | succ k =>
        refine Or.inr ⟨k, Nat.le_of_succ_le_succ hj, ?_⟩
        cases k with
        | zero => exact hp
        | succ m => exact hp

theorem filter_len_eq (l : List (List Char)) :
    l.filter (fun s => 2 < s.length) =
      l.filter (fun s => !decide (s.length ≤ 2)) := by
  apply List.filter_congr
  intro s _
  rcases Nat.lt_or_ge 2 s.length with h | h
  · rw [decide_eq_true h, decide_eq_false (Nat.not_le.mpr h)]
    rfl
  · rw [decide_eq_false (Nat.not_lt.mpr h), decide_eq_true h]
    rfl

theorem eq_normalize_of_mem_labelIngredients {la : Option (List LabelAnnotation)}
    {s : List Char} (h : s ∈ labelIngredients la) :
    ∃ r, s = normalizeIngredient r := by
  cases la with
  | none => exact absurd h (List.not_mem_nil s)
  | some ls =>
    rw [labelIngredients] at h
    rcases List.mem_map.mp h with ⟨l, _, rfl⟩
    exact ⟨l.description, rfl⟩

theorem eq_normalize_of_mem_textIngredients {ta : Option (List (List Char))}
    {s : List Char} (h : s ∈ textIngredients ta) :
    ∃ r, s = normalizeIngredient r := by
  cases ta with
  | none => exact absurd h (List.not_mem_nil s)
  | some l =>
    cases l with
    | nil => exact absurd h (List.not_mem_nil s)
    | cons t ts =>
      rw [textIngredients] at h
      rcases List.mem_map.mp h with ⟨r, _, rfl⟩
      exact ⟨r, rfl⟩

theorem dedup_filter_take_eq (L T : List (List Char)) :
    ((setDedup (L ++ T)).filter (fun s => 2 < s.length)).take 15 =
      ((dedupKeepFirst (L ++ T)).filter (fun s => !decide (s.length ≤ 2))).take 15 := by
  rw [setDedup_eq_dedupKeepFirst, filter_len_eq]

end PipelineLemmas

section Claims

set_option maxRecDepth 40000

/-- C1 (counterexample): on the end-to-end input with labels
Vegetable/0.8 and Car/0.95 and OCR text "recipe calls for 2 eggs and fresh
basil leaves", the pipeline does NOT return ["Vegetable", "Egg", "Basil"]:
"car" is a substring of the lexicon keyword "carrot", so Car is classified
food-related, and the mining dictionary stores the plural "eggs", which
normalizes to "Eggs". -/
theorem c1_end_to_end_counterexample :
    extractIngredients
        (some [⟨"Vegetable".toList, mkRat 8 10⟩, ⟨"Car".toList, mkRat 95 100⟩])
        (some ["recipe calls for 2 eggs and fresh basil leaves".toList]) ≠
      (["Vegetable", "Egg", "Basil"] : List String).map String.toList := by
  decide

/-- C1 (amended): on that same input the pipeline returns exactly
["Vegetable", "Car", "Eggs", "Basil"], in that order: both labels pass the
score and food-relatedness checks ("car" matches inside keyword "carrot"),
and the text mines the dictionary terms "eggs" and "basil" (in dictionary
order), normalized to "Eggs" and "Basil". -/
theorem c1_end_to_end_amended :
    extractIngredients
        (some [⟨"Vegetable".toList, mkRat 8 10⟩, ⟨"Car".toList, mkRat 95 100⟩])
        (some ["recipe calls for 2 eggs and fresh basil leaves".toList]) =
      (["Vegetable", "Car", "Eggs", "Basil"] : List String).map String.toList := by
  decide

/-- C2: a label whose score is at most 0.5 contributes nothing to the
pipeline output, whatever its description: deleting it from the label list
does not change the result; in particular the single label Tomato/0.4 with
no OCR text yields the empty list. -/
theorem c2_low_score_excluded :
    (∀ (pre post : List LabelAnnotation) (l : LabelAnnotation)
        (ta : Option (List (List Char))), l.score ≤ mkRat 1 2 →
        extractIngredients (some (pre ++ l :: post)) ta =
          extractIngredients (some (pre ++ post)) ta) ∧
      extractIngredients (some [⟨"Tomato".toList, mkRat 2 5⟩]) none = [] := by
  constructor
  · intro pre post l ta h
    have hf : decide (mkRat 1 2 < l.score) = false :=
      decide_eq_false (not_lt.mpr h)
    unfold extractIngredients
    simp only [labelIngredients]
    rw [List.filter_append, List.filter_cons, hf, Bool.false_and, if_neg (by simp),
      ← List.filter_append]
  · decide

/-- C2 witness: deleting the concrete label Tomato/0.4 (score 2/5 ≤ 1/2)
leaves the pipeline output unchanged. -/
theorem c2_low_score_excluded_witness :
    extractIngredients
        (some ([] ++ (⟨"Tomato".toList, mkRat 2 5⟩ : LabelAnnotation) :: [])) none =
      extractIngredients (some ([] ++ ([] : List LabelAnnotation))) none :=
  c2_low_score_excluded.1 [] [] ⟨"Tomato".toList, mkRat 2 5⟩ none (by decide)

/-- C3: `isFoodRelated` returns true exactly when some keyword of the
relatedness lexicon occurs as a substring of the lowercased label or the
lowercased label occurs as a substring of that keyword. -/
theorem c3_isFoodRelated_iff (label : List Char) :
    isFoodRelated label = true ↔
      ∃ k ∈ foodKeywords,
        (∃ p q, label.map jsToLower = p ++ k ++ q) ∨
          ∃ p q, k = p ++ label.map jsToLower ++ q := by
  simp only [isFoodRelated, List.any_eq_true, Bool.or_eq_true, hasSubstr_iff]

/-- C4: `extractIngredientsFromText` returns exactly the mining-dictionary
terms whose word-boundary, case-insensitive, optional-trailing-s pattern
matches somewhere in the text (emitting the stored dictionary term), in
dictionary order (a sublist of the dictionary), each term at most once;
and the pattern of a term tests true exactly when it matches at some position
of the text. -/
theorem c4_text_miner_characterization (text : List Char) :
    extractIngredientsFromText text =
        commonIngredients.filter (fun term => regexTestTerm term text) ∧
      (extractIngredientsFromText text).Sublist commonIngredients ∧
      (extractIngredientsFromText text).Nodup ∧
      (∀ term, term ∈ extractIngredientsFromText text ↔
        term ∈ commonIngredients ∧ regexTestTerm term text = true) ∧
      ∀ term, regexTestTerm term text = true ↔
        ∃ j, j ≤ text.length ∧
          patMatchAt term (posPrev none text j) (text.drop j) = true := by
  refine ⟨extractIngredientsFromText_eq_filter text, ?_, ?_, ?_, ?_⟩
  · rw [extractIngredientsFromText_eq_filter]
    exact List.filter_sublist _
  · rw [extractIngredientsFromText_eq_filter]
    exact commonIngredients_nodup.filter _
  · intro term
    rw [extractIngredientsFromText_eq_filter]
    simp [List.mem_filter]
  · intro term
    exact searchFrom_iff term text none

/-- C5 (counterexample): the tab character survives normalization (the
character filter keeps every JavaScript whitespace character, not only
U+0020), so not every output character is a Latin letter or a space:
`normalizeIngredient "a\tb" = "A\tb"`. -/
theorem c5_charset_counterexample :
    Char.ofNat 9 ∈ normalizeIngredient ("a\tb".toList) ∧
      (isLowerAZ (Char.ofNat 9) || isUpperAZ (Char.ofNat 9) ||
        (Char.ofNat 9 == spChar)) = false := by
  decide

/-- C5 (amended): every character of the output of `normalizeIngredient` is a
Latin letter or a JavaScript whitespace character (the stripping step
removes every character that is neither a lowercase a-z letter nor
whitespace), and an input that is empty after stripping yields the empty
string. -/
theorem c5_charset_amended (s : List Char) :
    (∀ c ∈ normalizeIngredient s, (isLowerAZ c || isUpperAZ c || isJsWs c) = true) ∧
      (stripChars (s.map jsToLower) = [] → normalizeIngredient s = []) :=
  ⟨fun _ hc => normalize_chars hc, normalize_of_strip_nil⟩

/-- C5 witness: "2!" strips to the empty string and normalizes to the empty
string. -/
theorem c5_charset_amended_witness : normalizeIngredient ("2!".toList) = [] :=
  (c5_charset_amended ("2!".toList)).2 (by decide)

/-- C6: `normalizeIngredient` is idempotent. -/
theorem c6_normalize_idempotent (x : List Char) :
    normalizeIngredient (normalizeIngredient x) = normalizeIngredient x :=
  normalizeIngredient_idem_aux x

/-- C7: for every input, the pipeline output has no duplicates, at most 15
entries, and every entry is longer than 2 characters, nonempty, and
contains a non-whitespace character (so no empty or whitespace-only
entries). -/
theorem c7_output_invariants (la : Option (List LabelAnnotation))
    (ta : Option (List (List Char))) :
    (extractIngredients la ta).Nodup ∧
      (extractIngredients la ta).length ≤ 15 ∧
      ∀ s ∈ extractIngredients la ta,
        2 < s.length ∧ s ≠ [] ∧ ∃ c ∈ s, isJsWs c = false := by
  refine ⟨?_, ?_, ?_⟩
  · exact ((setDedup_nodup _).filter _).sublist (List.take_sublist _ _)
  · exact List.length_take_le _ _
  · intro s hs
    have hsf := List.mem_of_mem_take hs
    have h2 : 2 < s.length := by simpa using (List.mem_filter.mp hsf).2
    have hsl := mem_of_mem_setDedup (List.mem_filter.mp hsf).1
    have himg : ∃ r, s = normalizeIngredient r := by
      rcases List.mem_append.mp hsl with h | h
      · exact eq_normalize_of_mem_labelIngredients h
      · exact eq_normalize_of_mem_textIngredients h
    rcases himg with ⟨r, rfl⟩
    have hne : normalizeIngredient r ≠ [] := by
      intro h0
      rw [h0] at h2
      simp at h2
    exact ⟨h2, hne, normalize_has_non_ws hne⟩

/-- C8: the pipeline computes exactly the six aggregation steps of the spec:
confidence/food-relatedness-filtered normalized labels in upstream order,
then normalized mined terms in dictionary order, deduplicated by exact
equality keeping first occurrences, short entries dropped, truncated to 15;
on 30 distinct qualifying ingredients (10 labels, 20 mined terms) the
output is exactly the first 15 in label-then-text order. -/
theorem c8_ordering_dedup_bound :
    (∀ (la : Option (List LabelAnnotation)) (ta : Option (List (List Char))),
        extractIngredients la ta = specExtractIngredients la (firstText ta)) ∧
      extractIngredients (some tenLabels) (some [twentyTermText]) = fifteenExpected ∧
      (extractIngredients (some tenLabels) (some [twentyTermText])).length = 15 := by
  refine ⟨?_, by decide, by decide⟩
  intro la ta
  cases la with
  | none =>
    cases ta with
    | none => exact dedup_filter_take_eq _ _
    | some l =>
      cases l with
      | nil => exact dedup_filter_take_eq _ _
      | cons t ts => exact dedup_filter_take_eq _ _
  | some ls =>
    cases ta with
    | none => exact dedup_filter_take_eq _ _
    | some l =>
      cases l with
      | nil => exact dedup_filter_take_eq _ _
      | cons t ts => exact dedup_filter_take_eq _ _

/-- C9: the pipeline is a total function returning a (possibly empty) list:
an absent OCR text simply skips the mining step (the output is exactly the
labels-only computation), an absent-or-empty text annotation list behaves
the same, and empty inputs yield the empty list rather than an error. -/
theorem c9_total_and_skip :
    (∀ la, extractIngredients la none =
        ((setDedup (labelIngredients la)).filter (fun s => 2 < s.length)).take 15) ∧
      (∀ la, extractIngredients la (some []) = extractIngredients la none) ∧
      extractIngredients none none = [] ∧
      extractIngredients (some []) (some []) = [] := by
  refine ⟨?_, ?_, by decide, by decide⟩
  · intro la
    unfold extractIngredients
    rw [show textIngredients none = [] from rfl, List.append_nil]
  · intro la
    unfold extractIngredients
    rw [show textIngredients (some []) = [] from rfl,
      show textIngredients none = [] from rfl]

/-- C10: `isFoodRelated` accepts the empty string (every keyword contains
the empty string as a substring), and more generally any label whose
lowercase form is a substring of some keyword; a label annotation with
empty description and score above 0.5 therefore passes the label filter
(contributing the empty normalized string), and only the length filter
keeps it out of the final output. -/
theorem c10_empty_label_food_related :
    isFoodRelated [] = true ∧
      (∀ label : List Char,
        (∃ k ∈ foodKeywords, ∃ p q, k = p ++ label.map jsToLower ++ q) →
          isFoodRelated label = true) ∧
      labelIngredients (some [⟨[], mkRat 9 10⟩]) = [[]] ∧
      extractIngredients (some [⟨[], mkRat 9 10⟩]) none = [] := by
  refine ⟨by decide, ?_, by decide, by decide⟩
  rintro label ⟨k, hk, p, q, hpq⟩
  apply List.any_eq_true.mpr
  refine ⟨k, hk, ?_⟩
  apply Bool.or_eq_true_iff.mpr
  exact Or.inr ((hasSubstr_iff k (label.map jsToLower)).mpr ⟨p, q, hpq⟩)

/-- C10 witness: the label "veg" is food-related because "veg" is a
substring of the keyword "vegetable". -/
theorem c10_empty_label_food_related_witness : isFoodRelated ("veg".toList) = true :=
  c10_empty_label_food_related.2.1 ("veg".toList)
    ⟨"vegetable".toList, by decide, [], "etable".toList, by decide⟩

end Claims

end FreshCook
